import Mathlib

/-!
A shallow embedding of the extraction core of `pubmed_industry_filter.py`:
the affiliation classifier (`is_industry_affiliation`), the author record
extractor (`parse_author`), the article record extractor
(`get_article_details`) and the batch loop of `main`.

XML elements reached by `find`/`findall` are modelled as records of
options: an outer `Option` models presence of the element, an inner
`Option String` models the `.text` field (Python `None` when the
element is empty).  The network fetch and XML deserialisation are external
collaborators; the embedding takes the already-located elements as input,
with `none` at the root modelling a response containing no
`PubmedArticle` element.  The only Python exception reachable in the
modelled code is the `AttributeError` raised by `None.text` when an
`AffiliationInfo` block lacks an `Affiliation` child; it is modelled with
`Except`.
-/

namespace PubMed

/-- The keyword list `INDUSTRY_KEYWORDS` of the source, verbatim. -/
def INDUSTRY_KEYWORDS : List String :=
  ["pharma", "pharmaceutical", "biotech", "biotechnology",
   "inc", "ltd", "llc", "plc", "corporation", "company",
   "gmbh", "ag", "sas", "sarl", "labs", "research", "healthcare",
   "pfizer", "novartis", "roche", "merck", "johnson & johnson",
   "gsk", "glaxosmithkline", "sanofi", "astrazeneca", "eli lilly"]

/-- The keyword list `ACADEMIC_KEYWORDS` of the source, verbatim. -/
def ACADEMIC_KEYWORDS : List String :=
  ["university", "college", "institute", "academy", "school",
   "hospital", "clinic", "medical center", "research center",
   "université", "universita", "universidad", "株式会社"]

/-- Boolean substring test: the Python expression `needle in hay`. -/
def substrB (needle hay : String) : Bool :=
  hay.data.tails.any (fun t => needle.data.isPrefixOf t)

/-- `str.lower`, character by character.  ASCII lower-casing: the Python `str.lower` method is Unicode-aware, but every keyword is already lower-case so
the difference only concerns non-ASCII upper-case input. -/
def lowerStr (s : String) : String := String.mk (s.data.map Char.toLower)

/-- Python truthiness of a value that is either `None` or a `str`. -/
def pyTruthy : Option String → Bool
  | none => false
  | some s => !s.isEmpty

/-- `str` rendering of an optional text, as an f-string does (`None` prints
as `"None"`). -/
def pyStr (t : Option String) : String := t.getD "None"

/-- The one Python exception reachable in the modelled code. -/
inductive PyExc where
  | attributeError
deriving DecidableEq, Repr

/-- Characters of the regex class `[a-zA-Z0-9._%+-]` (email local part). -/
def isLocalChar (c : Char) : Bool :=
  c.isAlpha || c.isDigit || c == '.' || c == '_' || c == '%' || c == '+' || c == '-'

/-- Characters of the regex class `[a-zA-Z0-9.-]` (email domain part). -/
def isDomChar (c : Char) : Bool :=
  c.isAlpha || c.isDigit || c == '.' || c == '-'

/-- Attempt to match `[a-zA-Z0-9.-]+\.[a-zA-Z]{2,}` against `cs` with the
dot placed at offset `k`: offsets `0..k-1` must be domain characters
(`k ≥ 1`), offset `k` the literal dot, followed by at least two letters
(taken greedily).  Returns the matched characters. -/
def domAt (cs : List Char) (k : Nat) : Option (List Char) :=
  let pre := cs.take k
  if 1 ≤ k && pre.length == k && pre.all isDomChar then
    match cs.drop k with
    | '.' :: tail =>
      let lr := tail.takeWhile (fun c => c.isAlpha)
      if 2 ≤ lr.length then some (pre ++ '.' :: lr) else none
    | _ => none
  else none

/-- Backtracking match of the domain part of the email regex at the start
of `cs`: the greedy `[a-zA-Z0-9.-]+` first consumes the maximal run, then
backs off one character at a time looking for `\.[a-zA-Z]{2,}`, so the
viable dot positions are tried from the largest down. -/
def domMatch (cs : List Char) : Option (List Char) :=
  (List.range (cs.takeWhile isDomChar).length).reverse.findSome? (fun k => domAt cs k)

/-- Scan for the leftmost match of the email regex
`[a-zA-Z0-9._%+-]+@[a-zA-Z0-9.-]+\.[a-zA-Z]{2,}`.  `revPre` is the
reversed prefix already scanned.  A match must place its `@` at some `@`
character of the text; the local part is then the maximal run of
local-part characters immediately before it (the greedy `+` cannot
backtrack past a non-`@` character), and the domain is matched by
`domMatch`. -/
def emailAux : List Char → List Char → Option String
  | _, [] => none
  | revPre, c :: cs =>
    if c == '@' then
      if (revPre.takeWhile isLocalChar).isEmpty then emailAux (c :: revPre) cs
      else
        match domMatch cs with
        | some d => some (String.mk ((revPre.takeWhile isLocalChar).reverse ++ c :: d))
        | none => emailAux (c :: revPre) cs
    else emailAux (c :: revPre) cs

/-- `re.search` with the pattern given above `emailAux`,
returning `group(0)` of the first match. -/
def emailSearch (s : String) : Option String := emailAux [] s.data

/-- One raw `<AffiliationInfo>` block: its `<Affiliation>` child (outer
option: element present; inner: its text). -/
structure RawAffiliationInfo where
  affiliationElem : Option (Option String)
deriving DecidableEq, Repr

/-- One raw `<Author>` element as read by `parse_author`: the `LastName`
and `ForeName` children (element presence and text), the first
`AffiliationInfo` block, and the `ValidYN` attribute. -/
structure RawAuthor where
  lastName : Option (Option String)
  foreName : Option (Option String)
  affiliationInfo : Option RawAffiliationInfo
  validYN : Option String
deriving DecidableEq, Repr

/-- The author dict built by `parse_author`. -/
structure PyAuthor where
  name : String
  affiliation : Option String
  email : Option String
  is_corresponding : Bool
deriving DecidableEq, Repr

/-- `parse_author` (source lines 129-158).  Returns `.ok none` when
`LastName` or `ForeName` is absent; raises (`.error`) when an
`AffiliationInfo` block is present without an `Affiliation` child
(reading `.text` of the result of a `find` that returned `None`). -/
def parse_author (a : RawAuthor) : Except PyExc (Option PyAuthor) :=
  match a.lastName, a.foreName with
  | some lt, some ft =>
    match (match a.affiliationInfo with
           | some info =>
             match info.affiliationElem with
             | some t => Except.ok t
             | none => Except.error PyExc.attributeError
           | none => Except.ok (some "")) with
    | Except.error e => Except.error e
    | Except.ok affiliation =>
      let is_corresponding :=
        (a.validYN.getD "N" == "Y") || substrB "corresponding" (lowerStr (affiliation.getD ""))
      let email := if pyTruthy affiliation then emailSearch (affiliation.getD "") else none
      Except.ok (some
        { name := pyStr ft ++ " " ++ pyStr lt
          affiliation := affiliation
          email := email
          is_corresponding := is_corresponding })
  | _, _ => Except.ok none

/-- `is_industry_affiliation` (source lines 160-185).  The argument is the
`affiliation` value of an author dict, which in Python is `None` or a
string. -/
def is_industry_affiliation (affiliation : Option String) : Bool :=
  match affiliation with
  | none => false
  | some s =>
    if s.isEmpty then false
    else
      let affil_lower := lowerStr s
      if ACADEMIC_KEYWORDS.any (fun k => substrB k affil_lower) then false
      else if INDUSTRY_KEYWORDS.any (fun k => substrB k affil_lower) then true
      else false

/-- The `<PubDate>` element: `Year`, `Month`, `Day` children (element
presence and text). -/
structure RawPubDate where
  year : Option (Option String)
  month : Option (Option String)
  day : Option (Option String)
deriving DecidableEq, Repr

/-- One `<ArticleId>` element: its `IdType` attribute and text. -/
structure RawArticleId where
  idType : Option String
  text : Option String
deriving DecidableEq, Repr

/-- The `<Article>` sub-block: only its `ArticleTitle` is read (as the
list of text chunks yielded by `itertext()`). -/
structure RawArticleData where
  articleTitle : Option (List String)
deriving DecidableEq, Repr

/-- One raw `<PubmedArticle>` as read by `get_article_details`: the
`Article` and `MedlineCitation` sub-blocks, the `PubDate` element, the
`Author` elements in source order, and the `ArticleIdList/ArticleId`
elements. -/
structure RawArticle where
  article : Option RawArticleData
  medline : Bool
  pubDate : Option RawPubDate
  authors : List RawAuthor
  articleIds : List RawArticleId
deriving DecidableEq, Repr

/-- The article dict returned by `get_article_details`. -/
structure Article where
  pubmed_id : String
  title : String
  publication_date : String
  doi : Option String
  all_authors : List PyAuthor
  industry_authors : List PyAuthor
  corresponding_emails : List String
deriving DecidableEq, Repr

/-- The publication-date string built at source lines 233-246, given that
the `PubDate` element is present: descend Year → Month → Day, stopping at
the first absent element or falsy text, and join with `-`; placeholder
when even the year is missing. -/
def pubDateStr (pd : RawPubDate) : String :=
  let date_parts : List String :=
    match pd.year with
    | some (some y) =>
      if y.isEmpty then []
      else
        y :: (match pd.month with
              | some (some m) =>
                if m.isEmpty then []
                else
                  m :: (match pd.day with
                        | some (some d) => if d.isEmpty then [] else [d]
                        | _ => [])
              | _ => [])
    | _ => []
  if date_parts.isEmpty then "Date not available" else String.intercalate "-" date_parts

/-- The accumulator of the author loop at source lines 249-262.
`corresponding_emails` is a Python `set` in the source; it is modelled as
a duplicate-free list in insertion order (the order of the final
`list(...)` is unspecified in Python, and the claims only concern set
membership). -/
structure LoopState where
  authors : List PyAuthor
  industry_authors : List PyAuthor
  corresponding_emails : List String
deriving DecidableEq, Repr

/-- `set.add`: insert if not already present. -/
def addEmail (l : List String) (e : String) : List String :=
  if e ∈ l then l else l ++ [e]

/-- The body of the author loop for one successfully parsed author. -/
def stepAuthor (st : LoopState) (au : PyAuthor) : LoopState :=
  { authors := st.authors ++ [au]
    industry_authors :=
      if is_industry_affiliation au.affiliation then st.industry_authors ++ [au]
      else st.industry_authors
    corresponding_emails :=
      if au.is_corresponding && pyTruthy au.email then
        addEmail st.corresponding_emails (au.email.getD "")
      else st.corresponding_emails }

/-- The author loop of `get_article_details` (source lines 253-262): a
raised exception aborts the loop (it propagates to the enclosing
`try`). -/
def processAuthors (st : LoopState) : List RawAuthor → Except PyExc LoopState
  | [] => Except.ok st
  | a :: rest =>
    match parse_author a with
    | Except.error e => Except.error e
    | Except.ok none => processAuthors st rest
    | Except.ok (some au) => processAuthors (stepAuthor st au) rest

/-- The DOI scan at source lines 269-274: first `ArticleId` whose `IdType`
attribute is `doi`; default `""`; `elem.text` may itself be `None`. -/
def findDoi (ids : List RawArticleId) : Option String :=
  match ids.find? (fun i => i.idType == some "doi") with
  | some i => i.text
  | none => some ""

/-- `get_article_details` (source lines 187-288), after the fetch and XML
parse: `none` at the root models a response with no `PubmedArticle`;
missing `Article` or `MedlineCitation` sub-blocks yield `None`; an
exception raised while parsing an author is caught by the enclosing
`try`/`except` and yields `None`; an article with no industry author
yields `None`. -/
def get_article_details (article_id : String) (root : Option RawArticle) : Option Article :=
  match root with
  | none => none
  | some art =>
    match art.article with
    | none => none
    | some article_data =>
      if !art.medline then none
      else
        let title :=
          match article_data.articleTitle with
          | some pieces => String.intercalate " " pieces
          | none => "No title available"
        let pub_date_str :=
          match art.pubDate with
          | none => ""
          | some pd => pubDateStr pd
        match processAuthors ⟨[], [], []⟩ art.authors with
        | Except.error _ => none
        | Except.ok st =>
          if st.industry_authors.isEmpty then none
          else
            some { pubmed_id := article_id
                   title := title
                   publication_date := pub_date_str
                   doi := findDoi art.articleIds
                   all_authors := st.authors
                   industry_authors := st.industry_authors
                   corresponding_emails := st.corresponding_emails }

/-- The article loop of `main` (source lines 523-535): each raw fetch
result is processed with `get_article_details`; `None` results (and the
articles whose processing raised, already converted to `None` inside
`get_article_details`) are skipped; the rest are appended in input
order. -/
def batchLoop (papers : List Article) : List (String × Option RawArticle) → List Article
  | [] => papers
  | r :: rest =>
    match get_article_details r.1 r.2 with
    | some paper => batchLoop (papers ++ [paper]) rest
    | none => batchLoop papers rest

/-- The batch processing of `main`, starting from the empty `papers`
list. -/
def processBatch (raws : List (String × Option RawArticle)) : List Article :=
  batchLoop [] raws

/-- An extracted author whose affiliation classifies as Industry. -/
def isIndustryAuthor (au : PyAuthor) : Bool := is_industry_affiliation au.affiliation

/-! ## Helper lemmas -/

/-- The boolean substring test agrees with list infixhood. -/
theorem substrB_iff_infix {n h : String} : substrB n h = true ↔ n.data <:+: h.data := by
  rw [substrB, List.any_eq_true]
  constructor
  · rintro ⟨t, ht, hp⟩
    rw [List.mem_tails] at ht
    rw [List.isPrefixOf_iff_prefix] at hp
    exact List.infix_iff_prefix_suffix.mpr ⟨t, hp, ht⟩
  · intro hinf
    rcases List.infix_iff_prefix_suffix.mp hinf with ⟨t, hp, ht⟩
    exact ⟨t, (List.mem_tails t _).mpr ht, List.isPrefixOf_iff_prefix.mpr hp⟩

theorem addEmail_mem {l : List String} {e x : String} :
    x ∈ addEmail l e ↔ x ∈ l ∨ x = e := by
  rw [addEmail]
  by_cases he : e ∈ l
  · simp only [he, if_pos]
    exact ⟨Or.inl, fun h => h.elim id (fun hx => hx ▸ he)⟩
  · simp [he]

theorem addEmail_nodup {l : List String} {e : String} (h : l.Nodup) :
    (addEmail l e).Nodup := by
  rw [addEmail]
  by_cases he : e ∈ l
  · simpa [he] using h
  · simp [he, List.nodup_append, h]

/-- A successful email match is never the empty string. -/
theorem emailAux_ne_empty : ∀ (rest revPre : List Char), emailAux revPre rest ≠ some "" := by
  intro rest
  induction rest with
  | nil => intro revPre h; simp [emailAux] at h
  | cons c cs ih =>
    intro revPre h
    rw [emailAux] at h
    repeat' split at h
    all_goals try exact ih _ h
    simp only [Option.some.injEq] at h
    have hd := congrArg String.data h
    simp at hd

theorem emailSearch_ne_empty (s : String) : emailSearch s ≠ some "" :=
  emailAux_ne_empty s.data []

/-- A raw author with a missing name field is dropped (not an error). -/
theorem parse_author_none_of_missing {a : RawAuthor}
    (h : a.lastName = none ∨ a.foreName = none) : parse_author a = Except.ok none := by
  rcases h with h | h
  · simp [parse_author, h]
  · cases hl : a.lastName <;> simp [parse_author, h, hl]

/-- Inversion of a successful `parse_author`. -/
theorem parse_author_eq_some {a : RawAuthor} {au : PyAuthor}
    (h : parse_author a = Except.ok (some au)) :
    ∃ lt ft aff, a.lastName = some lt ∧ a.foreName = some ft ∧
      (match a.affiliationInfo with
       | some info => info.affiliationElem = some aff
       | none => aff = some "") ∧
      au = { name := pyStr ft ++ " " ++ pyStr lt
             affiliation := aff
             email := if pyTruthy aff then emailSearch (aff.getD "") else none
             is_corresponding :=
               (a.validYN.getD "N" == "Y") ||
                 substrB "corresponding" (lowerStr (aff.getD "")) } := by
  cases hl : a.lastName with
  | none => simp [parse_author, hl] at h
  | some lt =>
    cases hf : a.foreName with
    | none => simp [parse_author, hl, hf] at h
    | some ft =>
      cases hai : a.affiliationInfo with
      | none =>
        simp only [parse_author, hl, hf, hai, Except.ok.injEq, Option.some.injEq] at h
        exact ⟨lt, ft, some "", rfl, rfl, rfl, h.symm⟩
      | some info =>
        cases hae : info.affiliationElem with
        | none => simp [parse_author, hl, hf, hai, hae] at h
        | some t =>
          simp only [parse_author, hl, hf, hai, hae, Except.ok.injEq, Option.some.injEq] at h
          exact ⟨lt, ft, t, rfl, rfl, hae, h.symm⟩

/-- An extracted author never carries the empty string as its email. -/
theorem parse_author_email_ne_empty {a : RawAuthor} {au : PyAuthor}
    (h : parse_author a = Except.ok (some au)) : au.email ≠ some "" := by
  rcases parse_author_eq_some h with ⟨lt, ft, aff, _, _, _, hau⟩
  subst hau
  simp only
  split
  · exact emailSearch_ne_empty _
  · simp

theorem processAuthors_industry_filter :
    ∀ (l : List RawAuthor) (st st' : LoopState),
      processAuthors st l = Except.ok st' →
      st.industry_authors = st.authors.filter isIndustryAuthor →
      st'.industry_authors = st'.authors.filter isIndustryAuthor := by
  intro l
  induction l with
  | nil =>
    intro st st' h hinv
    simp only [processAuthors, Except.ok.injEq] at h
    exact h ▸ hinv
  | cons a rest ih =>
    intro st st' h hinv
    rw [processAuthors] at h
    split at h
    · exact absurd h (by simp)
    · exact ih _ _ h hinv
    · refine ih _ _ h ?_
      rename_i au heq
      simp only [stepAuthor, List.filter_append, hinv, isIndustryAuthor]
      split <;> simp_all [isIndustryAuthor]

theorem processAuthors_emails :
    ∀ (l : List RawAuthor) (st st' : LoopState),
      processAuthors st l = Except.ok st' →
      st.corresponding_emails.Nodup →
      (∀ e, e ∈ st.corresponding_emails ↔
        ∃ au ∈ st.authors, au.is_corresponding = true ∧ au.email = some e) →
      st'.corresponding_emails.Nodup ∧
        ∀ e, e ∈ st'.corresponding_emails ↔
          ∃ au ∈ st'.authors, au.is_corresponding = true ∧ au.email = some e := by
  intro l
  induction l with
  | nil =>
    intro st st' h hnd hmem
    simp only [processAuthors, Except.ok.injEq] at h
    exact h ▸ ⟨hnd, hmem⟩
  | cons a rest ih =>
    intro st st' h hnd hmem
    rw [processAuthors] at h
    split at h
    · exact absurd h (by simp)
    · exact ih _ _ h hnd hmem
    · rename_i au heq
      refine ih _ _ h ?_ ?_
      · simp only [stepAuthor]
        split
        · exact addEmail_nodup hnd
        · exact hnd
      · intro e
        simp only [stepAuthor, List.mem_append, List.mem_singleton]
        constructor
        · intro hin
          by_cases hc : (au.is_corresponding && pyTruthy au.email) = true
          · rw [if_pos hc, addEmail_mem] at hin
            rcases hin with hin | hin
            · rcases (hmem e).mp hin with ⟨au', hau', hp⟩
              exact ⟨au', Or.inl hau', hp⟩
            · rcases Bool.and_eq_true_iff.mp hc with ⟨hcor, htr⟩
              cases hem : au.email with
              | none => rw [hem] at htr; simp [pyTruthy] at htr
              | some s =>
                rw [hem] at hin
                simp only [Option.getD_some] at hin
                exact ⟨au, Or.inr rfl, hcor, by rw [hem, hin]⟩
          · rw [if_neg hc] at hin
            rcases (hmem e).mp hin with ⟨au', hau', hp⟩
            exact ⟨au', Or.inl hau', hp⟩
        · rintro ⟨au', hau' | hau', hcor, hem⟩
          · have hin : e ∈ st.corresponding_emails := (hmem e).mpr ⟨au', hau', hcor, hem⟩
            split
            · rw [addEmail_mem]; exact Or.inl hin
            · exact hin
          · subst hau'
            have hne : au'.email ≠ some "" := parse_author_email_ne_empty heq
            have hee : e ≠ "" := fun hEq => hne (hEq ▸ hem)
            have hie : e.isEmpty = false := by
              cases hb : e.isEmpty
              · rfl
              · exact absurd ((String.isEmpty_iff e).mp hb) hee
            have htr : pyTruthy au'.email = true := by
              rw [hem]; simp [pyTruthy, hie]
            rw [if_pos (Bool.and_eq_true_iff.mpr ⟨hcor, htr⟩), addEmail_mem]
            right
            rw [hem, Option.getD_some]

theorem processAuthors_skip {a : RawAuthor} (ha : parse_author a = Except.ok none) :
    ∀ (pre : List RawAuthor) (st : LoopState) (post : List RawAuthor),
      processAuthors st (pre ++ a :: post) = processAuthors st (pre ++ post) := by
  intro pre
  induction pre with
  | nil =>
    intro st post
    simp only [List.nil_append, processAuthors, ha]
  | cons b pre ih =>
    intro st post
    simp only [List.cons_append, processAuthors]
    split
    · rfl
    · exact ih _ _
    · exact ih _ _

theorem batchLoop_eq :
    ∀ (l : List (String × Option RawArticle)) (acc : List Article),
      batchLoop acc l = acc ++ l.filterMap (fun r => get_article_details r.1 r.2) := by
  intro l
  induction l with
  | nil => intro acc; simp [batchLoop]
  | cons r rest ih =>
    intro acc
    rw [batchLoop]
    split
    · rename_i p hp
      rw [ih, List.filterMap_cons, hp, List.append_assoc, List.singleton_append]
    · rename_i hp
      rw [ih, List.filterMap_cons, hp]

theorem get_article_details_eq_some {id : String} {art : RawArticle} {res : Article}
    (h : get_article_details id (some art) = some res) :
    ∃ ad st, art.article = some ad ∧ art.medline = true ∧
      processAuthors ⟨[], [], []⟩ art.authors = Except.ok st ∧
      st.industry_authors ≠ [] ∧
      res = { pubmed_id := id
              title := match ad.articleTitle with
                       | some pieces => String.intercalate " " pieces
                       | none => "No title available"
              publication_date := match art.pubDate with
                                  | none => ""
                                  | some pd => pubDateStr pd
              doi := findDoi art.articleIds
              all_authors := st.authors
              industry_authors := st.industry_authors
              corresponding_emails := st.corresponding_emails } := by
  cases hart : art.article with
  | none => simp [get_article_details, hart] at h
  | some ad =>
    cases hm : art.medline with
    | false => simp [get_article_details, hart, hm] at h
    | true =>
      cases hpa : processAuthors ⟨[], [], []⟩ art.authors with
      | error e => simp [get_article_details, hart, hm, hpa] at h
      | ok st =>
        cases hie : st.industry_authors.isEmpty with
        | true => simp [get_article_details, hart, hm, hpa, hie] at h
        | false =>
          simp only [get_article_details, hart, hm, hpa, hie, Bool.not_true,
            Bool.false_eq_true, if_false, Option.some.injEq] at h
          refine ⟨ad, st, rfl, rfl, rfl, ?_, h.symm⟩
          intro hnil
          rw [hnil] at hie
          simp at hie

/-! ## Further definitions used in the claim statements -/

/-- The truthiness test the date code applies to an optional element:
the Python test `elem is not None and elem.text`. -/
def truthyText : Option (Option String) → Bool
  | some (some s) => !s.isEmpty
  | _ => false

/-- Stated from the wording the specification gives for the classifier (4.1),
for comparison with `is_industry_affiliation`: a non-empty affiliation
string classifies as Industry exactly when, after lower-casing, no
academic keyword occurs as a substring and some industry keyword does. -/
def classifiesIndustrySpec (aff : Option String) : Prop :=
  ∃ s, aff = some s ∧ s ≠ "" ∧
    (∀ k ∈ ACADEMIC_KEYWORDS, ¬ k.data <:+: (lowerStr s).data) ∧
    ∃ k ∈ INDUSTRY_KEYWORDS, k.data <:+: (lowerStr s).data

theorem pubDateStr_no_year {pd : RawPubDate} (h : truthyText pd.year = false) :
    pubDateStr pd = "Date not available" := by
  rw [pubDateStr]
  cases hy : pd.year with
  | none => simp
  | some yo =>
    cases yo with
    | none => simp
    | some y =>
      rw [hy] at h
      simp only [truthyText, Bool.not_eq_false'] at h
      simp [h]

theorem pubDateStr_year_only {pd : RawPubDate} {y : String}
    (hy : pd.year = some (some y)) (hy2 : y ≠ "")
    (hm : truthyText pd.month = false) : pubDateStr pd = y := by
  have hye : y.isEmpty = false := by
    cases hb : y.isEmpty
    · rfl
    · exact absurd ((String.isEmpty_iff y).mp hb) hy2
  rw [pubDateStr, hy]
  cases hmo : pd.month with
  | none => simp [hye]; rfl
  | some mo =>
    cases mo with
    | none => simp [hye]; rfl
    | some m =>
      rw [hmo] at hm
      simp only [truthyText, Bool.not_eq_false'] at hm
      simp [hye, hm]; rfl

theorem pubDateStr_full {pd : RawPubDate} {y m d : String}
    (hy : pd.year = some (some y)) (hy2 : y ≠ "")
    (hm : pd.month = some (some m)) (hm2 : m ≠ "")
    (hd : pd.day = some (some d)) (hd2 : d ≠ "") :
    pubDateStr pd = y ++ "-" ++ m ++ "-" ++ d := by
  have hye : y.isEmpty = false := by
    cases hb : y.isEmpty
    · rfl
    · exact absurd ((String.isEmpty_iff y).mp hb) hy2
  have hme : m.isEmpty = false := by
    cases hb : m.isEmpty
    · rfl
    · exact absurd ((String.isEmpty_iff m).mp hb) hm2
  have hde : d.isEmpty = false := by
    cases hb : d.isEmpty
    · rfl
    · exact absurd ((String.isEmpty_iff d).mp hb) hd2
  rw [pubDateStr, hy, hm, hd]
  simp [hye, hme, hde]
  rfl

/-! ## Concrete records used by counterexamples and witnesses -/

/-- A raw author with an industry affiliation. -/
def rawIndustryAuthor : RawAuthor :=
  ⟨some (some "Doe"), some (some "John"),
   some ⟨some (some "Pfizer Inc, Cambridge")⟩, none⟩

/-- A raw corresponding author with an academic affiliation carrying an
email address. -/
def rawAcadCorrAuthor : RawAuthor :=
  ⟨some (some "Roe"), some (some "Jane"),
   some ⟨some (some "University of X. corresponding author: jane@univ.edu")⟩, none⟩

/-- A raw author whose `AffiliationInfo` block has no `Affiliation`
child: `parse_author` raises an `AttributeError` on it. -/
def rawMissingAffilChild : RawAuthor :=
  ⟨some (some "B"), some (some "A"), some ⟨none⟩, none⟩

/-- A raw author with no `ForeName` element but an industry
affiliation. -/
def rawNoForeName : RawAuthor :=
  ⟨some (some "B"), none, some ⟨some (some "Pfizer Inc")⟩, none⟩

/-- The author entity `parse_author` extracts from `rawIndustryAuthor`. -/
def auIndustry : PyAuthor :=
  ⟨"John Doe", some "Pfizer Inc, Cambridge", none, false⟩

/-- The author entity `parse_author` extracts from `rawAcadCorrAuthor`. -/
def auAcadCorr : PyAuthor :=
  ⟨"Jane Roe", some "University of X. corresponding author: jane@univ.edu",
   some "jane@univ.edu", true⟩

/-- A well-formed raw article with one industry author and one academic
corresponding author. -/
def rawArticleFull : RawArticle :=
  ⟨some ⟨some ["A", "title"]⟩, true,
   some ⟨some (some "2021"), some (some "06"), some (some "15")⟩,
   [rawIndustryAuthor, rawAcadCorrAuthor],
   [⟨some "doi", some "10.1/xyz"⟩]⟩

/-- The loop state after processing the authors of `rawArticleFull`. -/
def stFull : LoopState :=
  ⟨[auIndustry, auAcadCorr], [auIndustry], ["jane@univ.edu"]⟩

/-- The article entity extracted from `rawArticleFull`. -/
def resFull : Article :=
  ⟨"123", "A title", "2021-06-15", some "10.1/xyz",
   [auIndustry, auAcadCorr], [auIndustry], ["jane@univ.edu"]⟩

/-- A raw article whose sub-blocks are present, with one industry author
followed by an author on which extraction raises. -/
def rawArticleRaise : RawArticle :=
  ⟨some ⟨none⟩, true, none, [rawIndustryAuthor, rawMissingAffilChild], []⟩

/-- `rawArticleRaise` without the raising author. -/
def rawArticleOnlyIndustry : RawArticle :=
  ⟨some ⟨none⟩, true, none, [rawIndustryAuthor], []⟩

/-- A raw article whose `PubDate` block is entirely absent. -/
def rawArticleNoDate : RawArticle :=
  ⟨some ⟨some ["T"]⟩, true, none, [rawIndustryAuthor], []⟩

/-- The article entity extracted from `rawArticleNoDate`. -/
def resNoDate : Article :=
  ⟨"7", "T", "", some "", [auIndustry], [auIndustry], []⟩

/-! ## The claims -/

/-- C1 (counterexample): the claim as stated is false.  In
`rawArticleRaise` the required sub-blocks are present and its first
author extracts to an Author entity whose affiliation classifies as
Industry, yet `get_article_details` returns `None`: extraction of the
second author raises (its `AffiliationInfo` block has no `Affiliation`
child), the exception is caught, and the whole article is dropped. -/
theorem claim1_counterexample :
    rawArticleRaise.article ≠ none ∧ rawArticleRaise.medline = true ∧
    rawIndustryAuthor ∈ rawArticleRaise.authors ∧
    parse_author rawIndustryAuthor = Except.ok (some auIndustry) ∧
    isIndustryAuthor auIndustry = true ∧
    get_article_details "9" (some rawArticleRaise) = none :=
  ⟨by decide, rfl, by decide, rfl, by decide, by decide⟩

/-- C1 (amended): for every raw article whose required sub-blocks are
present and whose author loop completes without a raised exception,
`get_article_details` returns `None` exactly when no extracted author
classifies as Industry; when it returns an Article, `all_authors` is the
list of extracted authors and `industry_authors` is exactly the ordered
subsequence (the filter) of `all_authors` whose affiliation classifies
as Industry, and is non-empty. -/
theorem claim1_industry_retention :
    ∀ (id : String) (art : RawArticle) (ad : RawArticleData) (st : LoopState),
      art.article = some ad →
      art.medline = true →
      processAuthors ⟨[], [], []⟩ art.authors = Except.ok st →
      ((get_article_details id (some art) = none ↔
        ∀ au ∈ st.authors, isIndustryAuthor au = false) ∧
       ∀ res, get_article_details id (some art) = some res →
         res.all_authors = st.authors ∧
         res.industry_authors = st.authors.filter isIndustryAuthor ∧
         res.industry_authors ≠ []) := by
  intro id art ad st had hm hpa
  have hfil : st.industry_authors = st.authors.filter isIndustryAuthor :=
    processAuthors_industry_filter art.authors ⟨[], [], []⟩ st hpa (by simp)
  constructor
  · cases hie : st.industry_authors.isEmpty with
    | true =>
      have hnil : st.authors.filter isIndustryAuthor = [] := by
        rw [← hfil]; exact List.isEmpty_iff.mp hie
      simp only [get_article_details, had, hm, hpa, hie, Bool.not_true, Bool.false_eq_true,
        if_false]
      constructor
      · intro _ au hau
        have := List.filter_eq_nil_iff.mp hnil au hau
        simpa using this
      · intro _; rfl
    | false =>
      simp only [get_article_details, had, hm, hpa, hie, Bool.not_true, Bool.false_eq_true,
        if_false]
      constructor
      · intro habs; exact absurd habs (by simp)
      · intro hall
        have : st.authors.filter isIndustryAuthor = [] := List.filter_eq_nil_iff.mpr
          (fun au hau => by simp [hall au hau])
        rw [← hfil] at this
        rw [this] at hie
        simp at hie
  · intro res h
    rcases get_article_details_eq_some h with ⟨ad2, st2, had2, _, hpa2, hne2, hres⟩
    have hst : st2 = st := by
      rw [hpa] at hpa2; exact (Except.ok.inj hpa2).symm
    subst hst
    rw [hres]
    exact ⟨rfl, hfil, hne2⟩

/-- C1 (witness): the amended theorem applied to `rawArticleFull`. -/
theorem claim1_witness :
    resFull.all_authors = stFull.authors ∧
    resFull.industry_authors = stFull.authors.filter isIndustryAuthor ∧
    resFull.industry_authors ≠ [] :=
  (claim1_industry_retention "123" rawArticleFull ⟨some ["A", "title"]⟩ stFull
    rfl rfl rfl).2 resFull rfl

/-- C2: `is_industry_affiliation` follows the ordered procedure of the
specification: an empty or absent string is Academic; otherwise, after
lower-casing, an academic keyword occurring as a substring forces
Academic even when an industry keyword also occurs; otherwise an
industry keyword forces Industry; otherwise Academic.  Stated as: the
classifier returns Industry exactly on `classifiesIndustrySpec`. -/
theorem claim2_classifier_refines_spec :
    ∀ aff, is_industry_affiliation aff = true ↔ classifiesIndustrySpec aff := by
  intro aff
  cases aff with
  | none => simp [is_industry_affiliation, classifiesIndustrySpec]
  | some s =>
    have hconv : ∀ (L : List String),
        (L.any (fun k => substrB k (lowerStr s)) = true) ↔
          ∃ k ∈ L, k.data <:+: (lowerStr s).data := by
      intro L
      rw [List.any_eq_true]
      exact exists_congr fun k => and_congr_right fun _ => substrB_iff_infix
    by_cases hs : s.isEmpty = true
    · have hse : s = "" := (String.isEmpty_iff s).mp hs
      subst hse
      simp [is_industry_affiliation, classifiesIndustrySpec]
      exact fun h2 => absurd h2 (by decide)
    · by_cases ha : ACADEMIC_KEYWORDS.any (fun k => substrB k (lowerStr s)) = true
      · rcases (hconv _).mp ha with ⟨k, hk, hinf⟩
        simp only [is_industry_affiliation, hs, ha, if_true, if_false, Bool.false_eq_true,
          classifiesIndustrySpec, Option.some.injEq, false_iff]
        rintro ⟨s2, rfl, _, hall, _⟩
        exact hall k hk hinf
      · by_cases hi : INDUSTRY_KEYWORDS.any (fun k => substrB k (lowerStr s)) = true
        · simp only [is_industry_affiliation, hs, ha, hi, if_true, if_false, Bool.false_eq_true,
            classifiesIndustrySpec, Option.some.injEq, true_iff]
          refine ⟨s, rfl, fun he => hs (by rw [he]; rfl), ?_, (hconv _).mp hi⟩
          intro k hk hinf
          exact ha ((hconv _).mpr ⟨k, hk, hinf⟩)
        · simp only [is_industry_affiliation, hs, ha, hi, if_true, if_false, Bool.false_eq_true,
            classifiesIndustrySpec, Option.some.injEq, false_iff]
          rintro ⟨s2, rfl, _, _, hex⟩
          exact hi ((hconv _).mpr hex)

/-- C3: batch processing equals `filterMap` of per-article extraction —
non-null results are appended strictly in input order, with no
re-sorting and no deduplication — and an article on which extraction
returns `None` (malformed, or raising internally) is skipped without
affecting any other article of the batch. -/
theorem claim3_batch_isolation :
    (∀ raws, processBatch raws = raws.filterMap (fun r => get_article_details r.1 r.2)) ∧
    (∀ (pre : List (String × Option RawArticle)) (bad : String × Option RawArticle)
       (post : List (String × Option RawArticle)),
      get_article_details bad.1 bad.2 = none →
      processBatch (pre ++ bad :: post) = processBatch (pre ++ post)) := by
  constructor
  · intro raws
    rw [processBatch, batchLoop_eq, List.nil_append]
  · intro pre bad post hbad
    rw [processBatch, processBatch, batchLoop_eq, batchLoop_eq]
    simp [List.filterMap_append, List.filterMap_cons, hbad]

/-- C3 (witness): dropping the article whose extraction raises leaves
the rest of the batch unchanged. -/
theorem claim3_witness :
    processBatch [("123", some rawArticleFull), ("9", some rawArticleRaise)] =
      processBatch [("123", some rawArticleFull)] :=
  claim3_batch_isolation.2 [("123", some rawArticleFull)] ("9", some rawArticleRaise) []
    (by decide)

/-- C4: when the `PubDate` block is present, the publication date is
built by reading Year, Month, Day in nested order and stopping at the
first missing field: the returned publication_date is `pubDateStr` of
the block; a missing Year yields the placeholder; Year present with
Month missing yields the year alone; Year, Month and Day present yields
the dash-joined triple. -/
theorem claim4_publication_date :
    ∀ (id : String) (art : RawArticle) (res : Article) (pd : RawPubDate),
      art.pubDate = some pd →
      get_article_details id (some art) = some res →
      (res.publication_date = pubDateStr pd) ∧
      (truthyText pd.year = false → res.publication_date = "Date not available") ∧
      (∀ y, pd.year = some (some y) → y ≠ "" → truthyText pd.month = false →
        res.publication_date = y) ∧
      (∀ y m d, pd.year = some (some y) → y ≠ "" → pd.month = some (some m) → m ≠ "" →
        pd.day = some (some d) → d ≠ "" →
        res.publication_date = y ++ "-" ++ m ++ "-" ++ d) := by
  intro id art res pd hpd h
  rcases get_article_details_eq_some h with ⟨ad, st, _, _, _, _, hres⟩
  have hps : res.publication_date = pubDateStr pd := by
    rw [hres]; simp only [hpd]
  refine ⟨hps, ?_, ?_, ?_⟩
  · intro hy
    rw [hps]
    exact pubDateStr_no_year hy
  · intro y hy hy2 hm
    rw [hps]
    exact pubDateStr_year_only hy hy2 hm
  · intro y m d hy hy2 hm hm2 hd hd2
    rw [hps]
    exact pubDateStr_full hy hy2 hm hm2 hd hd2

/-- C4 (witness): Year=2021, Month=06, Day=15 yields 2021-06-15. -/
theorem claim4_witness :
    resFull.publication_date = "2021" ++ "-" ++ "06" ++ "-" ++ "15" :=
  (claim4_publication_date "123" rawArticleFull resFull
      ⟨some (some "2021"), some (some "06"), some (some "15")⟩ rfl rfl).2.2.2
    "2021" "06" "15" rfl (by decide) rfl (by decide) rfl (by decide)

/-- C5: the claim states that extraction of an author never raises when
optional fields are missing, and the specification repeats that no
exceptions are raised for missing optional fields; but on a raw author
whose `AffiliationInfo` block is present without an `Affiliation` child
(both name fields present), `parse_author` raises an `AttributeError`,
which aborts the author, its siblings, and the whole article — while
the same article without that author is retained. -/
theorem claim5_missing_affiliation_child_raises :
    parse_author rawMissingAffilChild = Except.error PyExc.attributeError ∧
    rawMissingAffilChild.lastName ≠ none ∧
    rawMissingAffilChild.foreName ≠ none ∧
    rawMissingAffilChild.affiliationInfo ≠ none ∧
    get_article_details "9" (some rawArticleRaise) = none ∧
    get_article_details "9" (some rawArticleOnlyIndustry) ≠ none :=
  ⟨rfl, by decide, by decide, by decide, by decide, by decide⟩

/-- C6: a raw author missing its fore-name or last-name field is dropped
(`parse_author` returns `None`, not an error), it contributes nothing to
the author loop — so it never appears in `all_authors` — and removing
it from an article leaves extraction of that article unchanged. -/
theorem claim6_missing_name_dropped :
    ∀ (a : RawAuthor), a.lastName = none ∨ a.foreName = none →
      parse_author a = Except.ok none ∧
      (∀ (st : LoopState) (pre post : List RawAuthor),
        processAuthors st (pre ++ a :: post) = processAuthors st (pre ++ post)) ∧
      (∀ (id : String) (art : RawArticle) (pre post : List RawAuthor),
        get_article_details id
            (some { art with authors := pre ++ a :: post }) =
          get_article_details id (some { art with authors := pre ++ post })) := by
  intro a ha
  have hnone := parse_author_none_of_missing ha
  refine ⟨hnone, fun st pre post => processAuthors_skip hnone pre st post, ?_⟩
  intro id art pre post
  rw [get_article_details, get_article_details]
  simp only [processAuthors_skip hnone pre ⟨[], [], []⟩ post]

/-- C6 (witness): the theorem applied to `rawNoForeName`. -/
theorem claim6_witness :
    parse_author rawNoForeName = Except.ok none ∧
    processAuthors ⟨[], [], []⟩ ([rawIndustryAuthor] ++ rawNoForeName :: []) =
      processAuthors ⟨[], [], []⟩ ([rawIndustryAuthor] ++ []) ∧
    get_article_details "1"
        (some { rawArticleFull with authors := [rawIndustryAuthor] ++ rawNoForeName :: [] }) =
      get_article_details "1"
        (some { rawArticleFull with authors := [rawIndustryAuthor] ++ [] }) :=
  ⟨(claim6_missing_name_dropped rawNoForeName (Or.inr rfl)).1,
   (claim6_missing_name_dropped rawNoForeName (Or.inr rfl)).2.1 ⟨[], [], []⟩
     [rawIndustryAuthor] [],
   (claim6_missing_name_dropped rawNoForeName (Or.inr rfl)).2.2 "1" rawArticleFull
     [rawIndustryAuthor] []⟩

/-- C7: in every returned Article, `corresponding_emails` is duplicate
free and contains exactly the emails of those extracted authors whose
`is_corresponding` flag holds and whose `email` is non-null. -/
theorem claim7_corresponding_emails :
    ∀ (id : String) (art : RawArticle) (res : Article),
      get_article_details id (some art) = some res →
      res.corresponding_emails.Nodup ∧
        ∀ e, e ∈ res.corresponding_emails ↔
          ∃ au ∈ res.all_authors, au.is_corresponding = true ∧ au.email = some e := by
  intro id art res h
  rcases get_article_details_eq_some h with ⟨ad, st, _, _, hpa, _, hres⟩
  have := processAuthors_emails art.authors ⟨[], [], []⟩ st hpa (by simp) (by simp)
  rw [hres]
  exact this

/-- C7 (witness): the theorem applied to `rawArticleFull` at the email
of its corresponding author. -/
theorem claim7_witness :
    resFull.corresponding_emails.Nodup ∧
    ("jane@univ.edu" ∈ resFull.corresponding_emails ↔
      ∃ au ∈ resFull.all_authors, au.is_corresponding = true ∧
        au.email = some "jane@univ.edu") :=
  ⟨(claim7_corresponding_emails "123" rawArticleFull resFull rfl).1,
   (claim7_corresponding_emails "123" rawArticleFull resFull rfl).2 "jane@univ.edu"⟩

/-- C8: an extracted author has `is_corresponding` true exactly when the
raw validity flag equals Y or the affiliation text contains the
substring "corresponding" after lower-casing. -/
theorem claim8_is_corresponding :
    ∀ (a : RawAuthor) (au : PyAuthor),
      parse_author a = Except.ok (some au) →
      (au.is_corresponding = true ↔
        (a.validYN = some "Y" ∨
          ("corresponding").data <:+: (lowerStr (au.affiliation.getD "")).data)) := by
  intro a au h
  rcases parse_author_eq_some h with ⟨lt, ft, aff, _, _, _, hau⟩
  subst hau
  simp only [Bool.or_eq_true, beq_iff_eq, substrB_iff_infix]
  constructor
  · rintro (hv | hsub)
    · left
      cases hvy : a.validYN with
      | none => rw [hvy] at hv; exact absurd hv (by decide)
      | some v => rw [hvy] at hv; simp only [Option.getD_some] at hv; rw [hv]
    · right; exact hsub
  · rintro (hv | hsub)
    · left; rw [hv]; rfl
    · right; exact hsub

/-- C8 (witness): the theorem applied to `rawAcadCorrAuthor`, whose
affiliation text contains "corresponding". -/
theorem claim8_witness :
    auAcadCorr.is_corresponding = true ↔
      (rawAcadCorrAuthor.validYN = some "Y" ∨
        ("corresponding").data <:+: (lowerStr (auAcadCorr.affiliation.getD "")).data) :=
  claim8_is_corresponding rawAcadCorrAuthor auAcadCorr rfl

/-- C9: when the `PubDate` block itself is entirely absent, the returned
publication_date is the empty string, not the placeholder. -/
theorem claim9_absent_pubdate_empty :
    ∀ (id : String) (art : RawArticle) (res : Article),
      art.pubDate = none →
      get_article_details id (some art) = some res →
      res.publication_date = "" ∧ res.publication_date ≠ "Date not available" := by
  intro id art res hpd h
  rcases get_article_details_eq_some h with ⟨ad, st, _, _, _, _, hres⟩
  rw [hres]
  simp only [hpd]
  exact ⟨trivial, by decide⟩

/-- C9 (witness): the theorem applied to `rawArticleNoDate`. -/
theorem claim9_witness :
    resNoDate.publication_date = "" ∧
    resNoDate.publication_date ≠ "Date not available" :=
  claim9_absent_pubdate_empty "7" rawArticleNoDate resNoDate rfl rfl

/-- C10: `corresponding_emails` is collected over all extracted authors,
not only industry ones: `rawArticleFull` is retained and its
`corresponding_emails` contains the email of an author who is in
`all_authors` but not in `industry_authors`. -/
theorem claim10_emails_include_non_industry :
    get_article_details "123" (some rawArticleFull) = some resFull ∧
    auAcadCorr ∈ resFull.all_authors ∧
    auAcadCorr ∉ resFull.industry_authors ∧
    auAcadCorr.is_corresponding = true ∧
    auAcadCorr.email = some "jane@univ.edu" ∧
    "jane@univ.edu" ∈ resFull.corresponding_emails :=
  ⟨rfl, by decide, by decide, rfl, rfl, by decide⟩

end PubMed
